import Mathlib

/-!
Verification of the 2D BSP (binary space partitioning) renderer core
(`src/main.rs`): wall/segment geometry (construction, orientation normal,
intersection, splitting), the recursive partition-tree builder and the
viewer-relative traversal emitting the render order.

The embedding uses exact rationals (`ℚ`) for the source's `f64`
coordinates; every geometric decision in the source is a comparison of
arithmetic expressions, which the rational model reproduces exactly.
The recursive builder `Map.tree_create` is embedded with an explicit fuel
parameter (the source recurses unconditionally); termination with
sufficient fuel is proved as a theorem for the walls the program actually
constructs (`Wall.new` / `Wall.splice`).
-/

/-- 2D vector over ℚ, modelling nalgebra `Vector2<f64>`. -/
structure Vec2 where
  x : ℚ
  y : ℚ
deriving DecidableEq, Repr

/-- 3D vector over ℚ, modelling nalgebra `Vector3<f64>` (used only to
derive the orientation normal via a cross product, as the source does). -/
structure Vec3 where
  x : ℚ
  y : ℚ
  z : ℚ
deriving DecidableEq, Repr

instance : Add Vec2 := ⟨fun a b => ⟨a.x + b.x, a.y + b.y⟩⟩
instance : Sub Vec2 := ⟨fun a b => ⟨a.x - b.x, a.y - b.y⟩⟩
instance : Sub Vec3 := ⟨fun a b => ⟨a.x - b.x, a.y - b.y, a.z - b.z⟩⟩

/-- Componentwise scalar division, modelling `Vector2<f64> / f64`. -/
def Vec2.divScalar (a : Vec2) (k : ℚ) : Vec2 := ⟨a.x / k, a.y / k⟩

/-- Dot product of 2D vectors. -/
def Vec2.dot (a b : Vec2) : ℚ := a.x * b.x + a.y * b.y

/-- Cross product of 3D vectors, as nalgebra computes it. -/
def Vec3.cross (a b : Vec3) : Vec3 :=
  ⟨a.y * b.z - a.z * b.y, a.z * b.x - a.x * b.z, a.x * b.y - a.y * b.x⟩

/-- A wall segment: endpoints `p1`, `p2` and the stored orientation
normal `forward` (source struct `Wall`). -/
structure Wall where
  p1 : Vec2
  p2 : Vec2
  forward : Vec2
deriving DecidableEq, Repr

/-- `Wall::new`: derives `forward` as `up × (p2 − p1)` embedded in 3D,
then drops the z component.  It is total: the source has no error path,
also when `p1 = p2`. -/
def Wall.new (p1 p2 : Vec2) : Wall :=
  let v1 : Vec3 := ⟨p1.x, p1.y, 0⟩
  let v2 : Vec3 := ⟨p2.x, p2.y, 0⟩
  let up : Vec3 := ⟨0, 0, 1⟩
  let f3 : Vec3 := up.cross (v2 - v1)
  { p1 := p1, p2 := p2, forward := ⟨f3.x, f3.y⟩ }

/-- The 2×2 determinant (`denominator`) of the parametric line-line
system in `Wall::intersection`. -/
def Wall.den (self plane : Wall) : ℚ :=
  (self.p1.x - self.p2.x) * (plane.p1.y - plane.p2.y) -
    (self.p1.y - self.p2.y) * (plane.p1.x - plane.p2.x)

/-- The parameter `t` along `self` computed in `Wall::intersection`. -/
def Wall.tparam (self plane : Wall) : ℚ :=
  ((self.p1.x - plane.p1.x) * (plane.p1.y - plane.p2.y) -
    (self.p1.y - plane.p1.y) * (plane.p1.x - plane.p2.x)) / self.den plane

/-- The parameter `u` along `plane` computed in `Wall::intersection`.
The source computes it and never reads it (`let u = ...` is dead). -/
def Wall.uparam (self plane : Wall) : ℚ :=
  -((self.p1.x - self.p2.x) * (self.p1.y - plane.p1.y) -
    (self.p1.y - self.p2.y) * (self.p1.x - plane.p1.x)) / self.den plane

/-- `Wall::intersection`: `None` when `|denominator| < 0.001`; otherwise
the point `p1 + t·(p2 − p1)` iff `0 < t < 1` (only `t`, the parameter
along `self`, is checked; `u` is dead code). -/
def Wall.intersection (self plane : Wall) : Option Vec2 :=
  let denominator := self.den plane
  if denominator < 1/1000 ∧ -(1/1000) < denominator then
    none
  else
    let t := self.tparam plane
    if 0 < t ∧ t < 1 then
      some ⟨self.p1.x + t * (self.p2.x - self.p1.x),
            self.p1.y + t * (self.p2.y - self.p1.y)⟩
    else
      none

/-- `Wall::splice`: the two halves `(p1, point)` and `(point, p2)`.
Both carry the parent's stored `forward` unchanged. -/
def Wall.splice (self : Wall) (point : Vec2) : Wall × Wall :=
  ({ p1 := self.p1, p2 := point, forward := self.forward },
   { p1 := point, p2 := self.p2, forward := self.forward })

/-- `Wall::in_front`: is the midpoint of `wall` strictly on the positive
side of `self`'s stored normal? -/
def Wall.in_front (self : Wall) (wall : Wall) : Bool :=
  let center := (wall.p1 + wall.p2).divScalar 2
  let diff := center - self.p1
  decide (diff.dot self.forward > 0)

/-- `Wall::in_front_point`: same half-plane test for an explicit point. -/
def Wall.in_front_point (self : Wall) (point : Vec2) : Bool :=
  let diff := point - self.p1
  decide (diff.dot self.forward > 0)

/-- BSP tree node (source struct `BSPTree`): behind subtree, front
subtree (both optional), splitting segment. -/
inductive BSPTree where
  | mk (behind : Option BSPTree) (front : Option BSPTree) (segment : Wall)
deriving Repr

/-- The `behind` field. -/
def BSPTree.behind : BSPTree → Option BSPTree
  | .mk b _ _ => b

/-- The `front` field. -/
def BSPTree.front : BSPTree → Option BSPTree
  | .mk _ f _ => f

/-- The `segment` field. -/
def BSPTree.segment : BSPTree → Wall
  | .mk _ _ s => s

/-- The splitting pass of `Map::tree_create` (lines 134–143): each wall
of the remainder that intersects the slice plane is replaced by its two
splice halves, in order; the others are kept unchanged. -/
def spliceStep (slice_plane : Wall) (rest : List Wall) : List Wall :=
  rest.flatMap fun wall =>
    match wall.intersection slice_plane with
    | some pt => [(wall.splice pt).1, (wall.splice pt).2]
    | none => [wall]

/-- The front list of the classification pass (lines 145–154). -/
def frontList (slice_plane : Wall) (ws : List Wall) : List Wall :=
  ws.filter fun w => slice_plane.in_front w

/-- The back list of the classification pass (lines 145–154). -/
def backList (slice_plane : Wall) (ws : List Wall) : List Wall :=
  ws.filter fun w => !slice_plane.in_front w

/-- `Map::tree_create`, with explicit fuel for the unconditional
recursion of the source.  `none` means the fuel ran out; `some r` means
the source computation finishes with result `r`. -/
def Map.tree_create : Nat → List Wall → Option (Option BSPTree)
  | 0, _ => none
  | _ + 1, [] => some none
  | _ + 1, [w] => some (some (BSPTree.mk none none w))
  | fuel + 1, slice_plane :: rest =>
    let new_walls := spliceStep slice_plane rest
    let front := frontList slice_plane new_walls
    let back := backList slice_plane new_walls
    match Map.tree_create fuel back, Map.tree_create fuel front with
    | some b, some f => some (some (BSPTree.mk b f slice_plane))
    | _, _ => none

/-- `BSPTree::get_render_walls`: the in-order walk, with the `out`
vector of the source made an explicit accumulator. -/
def BSPTree.get_render_walls : Option BSPTree → List Wall → Vec2 → List Wall
  | none, out, _ => out
  | some (.mk behind front segment), out, camera_pos =>
    if !segment.in_front_point camera_pos then
      BSPTree.get_render_walls behind
        (BSPTree.get_render_walls front out camera_pos ++ [segment]) camera_pos
    else
      BSPTree.get_render_walls front
        (BSPTree.get_render_walls behind out camera_pos ++ [segment]) camera_pos

/-- `BSPTree::get_render_order`: run the walk from an empty `out`. -/
def BSPTree.get_render_order (self : BSPTree) (camera_pos : Vec2) : List Wall :=
  BSPTree.get_render_walls (some self) [] camera_pos

/-- The list of segments stored at the nodes of a tree (one entry per
node, in a fixed canonical order). -/
def treeSegs : Option BSPTree → List Wall
  | none => []
  | some (.mk behind front segment) => segment :: (treeSegs behind ++ treeSegs front)

/-- The number of nodes of a tree. -/
def numNodes : Option BSPTree → Nat
  | none => 0
  | some (.mk behind front _) => numNodes behind + numNodes front + 1

/-- Well-formedness of a wall's stored normal: `forward` is a positive
scalar multiple of the perpendicular `(-(y2−y1), x2−x1)` of its own
direction.  `Wall.new` establishes it with factor 1 and `Wall.splice`
preserves it; it is the invariant all walls of the program satisfy. -/
def Wall.WF (w : Wall) : Prop :=
  ∃ c : ℚ, 0 < c ∧
    w.forward = ⟨c * (w.p1.y - w.p2.y), c * (w.p2.x - w.p1.x)⟩

/-- Structural induction over `Option BSPTree`. -/
theorem optTree_ind (P : Option BSPTree → Prop) (h0 : P none)
    (h1 : ∀ b f s, P b → P f → P (some (.mk b f s))) : ∀ t, P t
  | none => h0
  | some (.mk b f s) => h1 b f s (optTree_ind P h0 h1 b) (optTree_ind P h0 h1 f)
termination_by t => sizeOf t

/-! ### Component simp lemmas for the vector operations -/

@[simp] theorem Vec2.add_x (a b : Vec2) : (a + b).x = a.x + b.x := rfl
@[simp] theorem Vec2.add_y (a b : Vec2) : (a + b).y = a.y + b.y := rfl
@[simp] theorem Vec2.sub_x (a b : Vec2) : (a - b).x = a.x - b.x := rfl
@[simp] theorem Vec2.sub_y (a b : Vec2) : (a - b).y = a.y - b.y := rfl
@[simp] theorem Vec2.divScalar_x (a : Vec2) (k : ℚ) : (a.divScalar k).x = a.x / k := rfl
@[simp] theorem Vec2.divScalar_y (a : Vec2) (k : ℚ) : (a.divScalar k).y = a.y / k := rfl
@[simp] theorem Vec3.x_of_sub (a b : Vec3) : (a - b).x = a.x - b.x := rfl
@[simp] theorem Vec3.y_of_sub (a b : Vec3) : (a - b).y = a.y - b.y := rfl
@[simp] theorem Vec3.z_of_sub (a b : Vec3) : (a - b).z = a.z - b.z := rfl

/-! ### The traversal as a pure list, and its relation to the
accumulator-passing source walk -/

/-- The render walk as a pure list-valued function (no accumulator). -/
def renderList : Option BSPTree → Vec2 → List Wall
  | none, _ => []
  | some (.mk behind front segment), cam =>
    if !segment.in_front_point cam then
      renderList front cam ++ segment :: renderList behind cam
    else
      renderList behind cam ++ segment :: renderList front cam

/-- The source walk appends `renderList` to its accumulator. -/
theorem get_render_walls_eq (cam : Vec2) :
    ∀ t out, BSPTree.get_render_walls t out cam = out ++ renderList t cam := by
  refine optTree_ind (fun t => ∀ out,
    BSPTree.get_render_walls t out cam = out ++ renderList t cam) ?_ ?_
  · intro out
    simp [BSPTree.get_render_walls, renderList]
  · intro b f s hb hf out
    by_cases h : s.in_front_point cam <;>
      simp [BSPTree.get_render_walls, renderList, h, hb, hf, List.append_assoc]

/-- `get_render_order` is `renderList` from the root. -/
theorem get_render_order_eq (t : BSPTree) (cam : Vec2) :
    t.get_render_order cam = renderList (some t) cam := by
  simpa [BSPTree.get_render_order] using get_render_walls_eq cam (some t) []

/-- The walk emits a permutation of the node segments. -/
theorem renderList_perm (cam : Vec2) :
    ∀ t, List.Perm (renderList t cam) (treeSegs t) := by
  refine optTree_ind (fun t => List.Perm (renderList t cam) (treeSegs t)) ?_ ?_
  · simp [renderList, treeSegs]
  · intro b f s hb hf
    by_cases h : s.in_front_point cam <;> simp only [renderList, treeSegs, h]
    · exact List.perm_middle.trans ((hb.append hf).cons s)
    · exact List.perm_middle.trans (((hf.append hb).trans List.perm_append_comm).cons s)

/-- One node segment per tree node. -/
theorem treeSegs_length : ∀ t, (treeSegs t).length = numNodes t := by
  refine optTree_ind (fun t => (treeSegs t).length = numNodes t) ?_ ?_
  · simp [treeSegs, numNodes]
  · intro b f s hb hf
    simp [treeSegs, numNodes, hb, hf]

/-! ### Claim theorems: traversal -/

/-- C1: for every BSP tree and every viewer point, the sequence returned
by `get_render_order` contains every segment stored in the nodes of the
tree exactly once — it is a permutation of the per-node segment list —
and its length equals the number of nodes of the tree. -/
theorem renderOrder_perm_and_length (t : BSPTree) (cam : Vec2) :
    List.Perm (t.get_render_order cam) (treeSegs (some t)) ∧
      (t.get_render_order cam).length = numNodes (some t) := by
  have hp : List.Perm (t.get_render_order cam) (treeSegs (some t)) := by
    rw [get_render_order_eq]
    exact renderList_perm cam (some t)
  exact ⟨hp, by rw [hp.length_eq, treeSegs_length]⟩

/-- C5: at every node, when the viewer is not in front of the node's
segment the walk visits the front subtree, emits the segment, then the
back subtree; otherwise back subtree, segment, front subtree; an absent
subtree contributes nothing to the accumulator. -/
theorem renderOrder_node_cases (b f : Option BSPTree) (s : Wall) (cam : Vec2)
    (out : List Wall) :
    (BSPTree.mk b f s).get_render_order cam =
      (if s.in_front_point cam then
        BSPTree.get_render_walls b [] cam ++ s :: BSPTree.get_render_walls f [] cam
      else
        BSPTree.get_render_walls f [] cam ++ s :: BSPTree.get_render_walls b [] cam) ∧
      BSPTree.get_render_walls none out cam = out := by
  constructor
  · have h1 := get_render_walls_eq cam (some (BSPTree.mk b f s)) ([] : List Wall)
    have h2 := get_render_walls_eq cam b ([] : List Wall)
    have h3 := get_render_walls_eq cam f ([] : List Wall)
    by_cases h : s.in_front_point cam <;>
      simp [BSPTree.get_render_order, h1, h2, h3, renderList, h]
  · simp [BSPTree.get_render_walls]

/-- C8: the traversal is deterministic — equal trees and equal viewer
points give identical output sequences.  (In the embedding the walk is a
pure function of the tree and the camera position, mirroring that the
source takes the tree by shared reference and never mutates it.) -/
theorem renderOrder_deterministic (t₁ t₂ : BSPTree) (c₁ c₂ : Vec2)
    (ht : t₁ = t₂) (hc : c₁ = c₂) :
    t₁.get_render_order c₁ = t₂.get_render_order c₂ := by
  rw [ht, hc]

/-- Witness for C8 at a concrete tree and camera. -/
theorem renderOrder_deterministic_witness :
    (BSPTree.mk none none (Wall.new ⟨0, 0⟩ ⟨1, 0⟩)).get_render_order ⟨2, 3⟩ =
      (BSPTree.mk none none (Wall.new ⟨0, 0⟩ ⟨1, 0⟩)).get_render_order ⟨2, 3⟩ :=
  renderOrder_deterministic _ _ _ _ rfl rfl

/-! ### Claim theorems: builder base cases -/

/-- C6: with any nonzero fuel, `tree_create` on the empty list finishes
and returns absence (not an error), and on a one-element list finishes
and returns a leaf node wrapping that segment with both children absent. -/
theorem tree_create_base_cases (fuel : Nat) (w : Wall) :
    Map.tree_create (fuel + 1) [] = some none ∧
      Map.tree_create (fuel + 1) [w] = some (some (BSPTree.mk none none w)) := by
  constructor <;> rfl

/-! ### Claim theorems: geometry primitives -/

/-- C3 counterexample: segment construction with coincident endpoints
does not fail (the source `Wall::new` has no error path at all) and
silently produces a segment whose stored normal is the zero vector. -/
theorem new_degenerate_counterexample :
    Wall.new ⟨1, 2⟩ ⟨1, 2⟩ =
      { p1 := ⟨1, 2⟩, p2 := ⟨1, 2⟩, forward := ⟨0, 0⟩ } := by
  simp [Wall.new, Vec3.cross]

/-- C3 amended: `Wall::new` is total — for every pair of points,
coincident ones included, it returns a segment; with `p1 = p2` the
derived normal is the zero vector (there is no `InvalidSegment` error in
the code). -/
theorem new_degenerate_total (p : Vec2) :
    Wall.new p p = { p1 := p, p2 := p, forward := ⟨0, 0⟩ } := by
  simp [Wall.new, Vec3.cross]

/-- C2 counterexample: both halves returned by `splice` carry the
parent's stored normal, which differs from the normal `Wall::new` would
derive from the halves' own endpoints. -/
theorem splice_normal_counterexample :
    ((Wall.new ⟨0, 0⟩ ⟨2, 0⟩).splice ⟨1, 0⟩).1.forward =
        (Wall.new ⟨0, 0⟩ ⟨2, 0⟩).forward ∧
      ((Wall.new ⟨0, 0⟩ ⟨2, 0⟩).splice ⟨1, 0⟩).2.forward =
        (Wall.new ⟨0, 0⟩ ⟨2, 0⟩).forward ∧
      ((Wall.new ⟨0, 0⟩ ⟨2, 0⟩).splice ⟨1, 0⟩).1.forward ≠
        (Wall.new ⟨0, 0⟩ ⟨1, 0⟩).forward ∧
      ((Wall.new ⟨0, 0⟩ ⟨2, 0⟩).splice ⟨1, 0⟩).2.forward ≠
        (Wall.new ⟨1, 0⟩ ⟨2, 0⟩).forward := by
  refine ⟨rfl, rfl, ?_, ?_⟩ <;>
    · simp only [Wall.new, Wall.splice, Vec3.cross, Vec3.x_of_sub, Vec3.y_of_sub, Vec3.z_of_sub,
        ne_eq, Vec2.mk.injEq, not_and]
      intro hx
      norm_num

/-- C4: `intersection` returns absence when the magnitude of the 2×2
determinant is below the fixed epsilon `0.001`; otherwise it returns
`p1 + t·(p2 − p1)` exactly when the parameter `t` along the first
segment lies strictly inside `(0, 1)`, and absence when `t` is outside
or at an endpoint of that interval. -/
theorem intersection_spec (a b : Wall) :
    (|a.den b| < 1/1000 → a.intersection b = none) ∧
    (1/1000 ≤ |a.den b| →
      (0 < a.tparam b ∧ a.tparam b < 1 →
        a.intersection b =
          some ⟨a.p1.x + a.tparam b * (a.p2.x - a.p1.x),
                a.p1.y + a.tparam b * (a.p2.y - a.p1.y)⟩) ∧
      (a.tparam b ≤ 0 ∨ 1 ≤ a.tparam b → a.intersection b = none)) := by
  refine ⟨fun hlt => ?_, fun hge => ⟨fun ht => ?_, fun ht => ?_⟩⟩
  · have hc : a.den b < 1/1000 ∧ -(1/1000) < a.den b := by
      rw [abs_lt] at hlt
      exact ⟨hlt.2, hlt.1⟩
    simp only [Wall.intersection]
    rw [if_pos hc]
  · have hg : ¬(a.den b < 1/1000 ∧ -(1/1000) < a.den b) := by
      intro hc
      have : |a.den b| < 1/1000 := abs_lt.mpr ⟨hc.2, hc.1⟩
      linarith
    simp only [Wall.intersection]
    rw [if_neg hg, if_pos ht]
  · have hg : ¬(a.den b < 1/1000 ∧ -(1/1000) < a.den b) := by
      intro hc
      have : |a.den b| < 1/1000 := abs_lt.mpr ⟨hc.2, hc.1⟩
      linarith
    have hnt : ¬(0 < a.tparam b ∧ a.tparam b < 1) := by
      rcases ht with h | h
      · exact fun hx => absurd hx.1 (not_lt.mpr h)
      · exact fun hx => absurd hx.2 (not_lt.mpr h)
    simp only [Wall.intersection]
    rw [if_neg hg, if_neg hnt]

/-- Witness for C4: a vertical segment through the origin against the
line of the horizontal segment from (1,0) to (2,0); the determinant is
−2 and `t = 1/2`, so the crossing point (0,0) is returned. -/
theorem intersection_spec_witness :
    (Wall.new ⟨0, -1⟩ ⟨0, 1⟩).intersection (Wall.new ⟨1, 0⟩ ⟨2, 0⟩) = some ⟨0, 0⟩ := by
  have hden : (1 : ℚ)/1000 ≤ |(Wall.new ⟨0, -1⟩ ⟨0, 1⟩).den (Wall.new ⟨1, 0⟩ ⟨2, 0⟩)| := by
    norm_num [Wall.den, Wall.new, Vec3.cross]
  have ht : (Wall.new ⟨0, -1⟩ ⟨0, 1⟩).tparam (Wall.new ⟨1, 0⟩ ⟨2, 0⟩) = 1/2 := by
    norm_num [Wall.tparam, Wall.den, Wall.new, Vec3.cross]
  have h := ((intersection_spec (Wall.new ⟨0, -1⟩ ⟨0, 1⟩) (Wall.new ⟨1, 0⟩ ⟨2, 0⟩)).2
    hden).1 (by rw [ht]; norm_num)
  rw [h, ht]
  norm_num [Wall.new, Vec3.cross]

/-- C10: the intersection test validates only `t` and ignores `u`: for
the concrete pair below the infinite-line crossing point (0,0) lies
strictly inside the first segment (`t = 1/2`) but strictly outside the
second segment — its parameter `u = −1` is negative, and every point of
the second segment has x ≥ 1 while the crossing has x = 0 — yet
`intersection` still returns the crossing point, i.e. the second
argument behaves as an infinite line. -/
theorem intersection_ignores_second_param :
    (Wall.new ⟨0, -1⟩ ⟨0, 1⟩).intersection (Wall.new ⟨1, 0⟩ ⟨2, 0⟩) = some ⟨0, 0⟩ ∧
    (Wall.new ⟨0, -1⟩ ⟨0, 1⟩).tparam (Wall.new ⟨1, 0⟩ ⟨2, 0⟩) = 1/2 ∧
    (Wall.new ⟨0, -1⟩ ⟨0, 1⟩).uparam (Wall.new ⟨1, 0⟩ ⟨2, 0⟩) = -1 ∧
    (Wall.new ⟨1, 0⟩ ⟨2, 0⟩).p1.x = 1 ∧ (Wall.new ⟨1, 0⟩ ⟨2, 0⟩).p2.x = 2 ∧
    (Wall.new ⟨1, 0⟩ ⟨2, 0⟩).p1.y = 0 ∧ (Wall.new ⟨1, 0⟩ ⟨2, 0⟩).p2.y = 0 := by
  have hden : (Wall.new ⟨0, -1⟩ ⟨0, 1⟩).den (Wall.new ⟨1, 0⟩ ⟨2, 0⟩) = -2 := by
    norm_num [Wall.den, Wall.new, Vec3.cross]
  have ht : (Wall.new ⟨0, -1⟩ ⟨0, 1⟩).tparam (Wall.new ⟨1, 0⟩ ⟨2, 0⟩) = 1/2 := by
    norm_num [Wall.tparam, Wall.den, Wall.new, Vec3.cross]
  refine ⟨?_, ht, ?_, rfl, rfl, rfl, rfl⟩
  · simp only [Wall.intersection]
    rw [if_neg (by rw [hden]; norm_num), if_pos (by rw [ht]; norm_num)]
    rw [ht]
    norm_num [Wall.new, Vec3.cross]
  · norm_num [Wall.uparam, Wall.den, Wall.new, Vec3.cross]

/-! ### The well-formedness invariant and the splitting geometry -/

/-- `Wall.new` establishes the normal invariant with factor 1. -/
theorem new_WF (p q : Vec2) : (Wall.new p q).WF := by
  refine ⟨1, one_pos, ?_⟩
  simp only [Wall.new, Vec3.cross, Vec3.x_of_sub, Vec3.y_of_sub, Vec3.z_of_sub, Vec2.mk.injEq]
  constructor <;> ring

/-- Eliminating a successful intersection: the determinant guard passed
(in particular the determinant is nonzero), `t` is strictly inside
`(0, 1)`, and the point is `p1 + t·(p2 − p1)`. -/
theorem intersection_some_elim (w plane : Wall) (pt : Vec2)
    (h : w.intersection plane = some pt) :
    w.den plane ≠ 0 ∧ 0 < w.tparam plane ∧ w.tparam plane < 1 ∧
      pt = ⟨w.p1.x + w.tparam plane * (w.p2.x - w.p1.x),
            w.p1.y + w.tparam plane * (w.p2.y - w.p1.y)⟩ := by
  simp only [Wall.intersection] at h
  by_cases hg : w.den plane < 1/1000 ∧ -(1/1000) < w.den plane
  · rw [if_pos hg] at h
    exact absurd h (by simp)
  · rw [if_neg hg] at h
    by_cases ht : 0 < w.tparam plane ∧ w.tparam plane < 1
    · rw [if_pos ht] at h
      refine ⟨fun h0 => hg ⟨by rw [h0]; norm_num, by rw [h0]; norm_num⟩,
        ht.1, ht.2, (Option.some.inj h).symm⟩
    · rw [if_neg ht] at h
      exact absurd h (by simp)

/-- Pure arithmetic: the two halves of a segment split at the parameter-
`t` point of its line, classified against a plane through `(x3, y3)`,
`(x4, y4)` with normal `c·(y3 − y4, x4 − x3)`, lie strictly on opposite
sides.  `hA` records that `t` solves the parametric system. -/
theorem sides_arith (x1 y1 x2 y2 x3 y3 x4 y4 c t : ℚ)
    (hc : 0 < c) (ht0 : 0 < t) (ht1 : t < 1)
    (hden : (x1 - x2) * (y3 - y4) - (y1 - y2) * (x3 - x4) ≠ 0)
    (hA : (x1 - x3) * (y3 - y4) - (y1 - y3) * (x3 - x4)
        = t * ((x1 - x2) * (y3 - y4) - (y1 - y2) * (x3 - x4))) :
    ((x1 + (x1 + t * (x2 - x1))) / 2 - x3) * (c * (y3 - y4)) +
      ((y1 + (y1 + t * (y2 - y1))) / 2 - y3) * (c * (x4 - x3)) > 0 ↔
    ¬((((x1 + t * (x2 - x1)) + x2) / 2 - x3) * (c * (y3 - y4)) +
      (((y1 + t * (y2 - y1)) + y2) / 2 - y3) * (c * (x4 - x3)) > 0) := by
  have e1 : ((x1 + (x1 + t * (x2 - x1))) / 2 - x3) * (c * (y3 - y4)) +
      ((y1 + (y1 + t * (y2 - y1))) / 2 - y3) * (c * (x4 - x3))
      = c * t * ((x1 - x2) * (y3 - y4) - (y1 - y2) * (x3 - x4)) / 2 := by
    linear_combination c * hA
  have e2 : (((x1 + t * (x2 - x1)) + x2) / 2 - x3) * (c * (y3 - y4)) +
      (((y1 + t * (y2 - y1)) + y2) / 2 - y3) * (c * (x4 - x3))
      = c * (t - 1) * ((x1 - x2) * (y3 - y4) - (y1 - y2) * (x3 - x4)) / 2 := by
    linear_combination c * hA
  rw [e1, e2]
  set den := (x1 - x2) * (y3 - y4) - (y1 - y2) * (x3 - x4) with hden_def
  rcases lt_or_gt_of_ne hden with hd | hd
  · have h1 : c * t > 0 := mul_pos hc ht0
    have hD1 : c * t * den / 2 < 0 := by nlinarith
    have h2 : c * (t - 1) < 0 := mul_neg_of_pos_of_neg hc (by linarith)
    have hD2 : c * (t - 1) * den / 2 > 0 := by nlinarith
    exact iff_of_false (by linarith) (fun h => h hD2)
  · have h1 : c * t > 0 := mul_pos hc ht0
    have hD1 : c * t * den / 2 > 0 := by nlinarith
    have h2 : c * (t - 1) < 0 := mul_neg_of_pos_of_neg hc (by linarith)
    have hD2 : ¬(c * (t - 1) * den / 2 > 0) := by nlinarith
    exact iff_of_true hD1 hD2

/-- Against a well-formed slice plane, the two halves produced by a
successful intersection-and-splice land strictly on opposite sides of
the plane's half-plane test. -/
theorem in_front_splice_opposite (plane w : Wall) (pt : Vec2)
    (hWF : plane.WF) (h : w.intersection plane = some pt) :
    plane.in_front (w.splice pt).1 = !plane.in_front (w.splice pt).2 := by
  obtain ⟨c, hc, hfwd⟩ := hWF
  obtain ⟨hden, ht0, ht1, hpt⟩ := intersection_some_elim w plane pt h
  subst hpt
  simp only [Wall.den] at hden
  have hA : (w.p1.x - plane.p1.x) * (plane.p1.y - plane.p2.y) -
      (w.p1.y - plane.p1.y) * (plane.p1.x - plane.p2.x)
      = w.tparam plane * ((w.p1.x - w.p2.x) * (plane.p1.y - plane.p2.y) -
        (w.p1.y - w.p2.y) * (plane.p1.x - plane.p2.x)) := by
    rw [Wall.tparam, Wall.den]
    exact (div_mul_cancel₀ _ hden).symm
  have hiff := sides_arith w.p1.x w.p1.y w.p2.x w.p2.y plane.p1.x plane.p1.y
    plane.p2.x plane.p2.y c (w.tparam plane) hc ht0 ht1 hden hA
  simp only [Wall.in_front, Wall.splice, Vec2.dot, Vec2.add_x, Vec2.add_y, Vec2.sub_x,
    Vec2.sub_y, Vec2.divScalar_x, Vec2.divScalar_y, hfwd]
  by_cases h2 : (((w.p1.x + w.tparam plane * (w.p2.x - w.p1.x)) + w.p2.x) / 2 - plane.p1.x) *
      (c * (plane.p1.y - plane.p2.y)) +
      (((w.p1.y + w.tparam plane * (w.p2.y - w.p1.y)) + w.p2.y) / 2 - plane.p1.y) *
      (c * (plane.p2.x - plane.p1.x)) > 0
  · have h1 : ¬((w.p1.x + (w.p1.x + w.tparam plane * (w.p2.x - w.p1.x))) / 2 - plane.p1.x) *
        (c * (plane.p1.y - plane.p2.y)) +
        ((w.p1.y + (w.p1.y + w.tparam plane * (w.p2.y - w.p1.y))) / 2 - plane.p1.y) *
        (c * (plane.p2.x - plane.p1.x)) > 0 :=
      fun hx => (hiff.mp hx) h2
    simp [h1, h2]
  · have h1 := hiff.mpr h2
    simp [h1, h2]

/-- Splicing at a strictly interior point of the segment's own line
keeps both halves well-formed: the inherited parent normal is a positive
scalar multiple of each half's freshly derived perpendicular. -/
theorem splice_interior_WF (w : Wall) (t : ℚ) (hw : w.WF) (ht0 : 0 < t) (ht1 : t < 1) :
    (w.splice ⟨w.p1.x + t * (w.p2.x - w.p1.x), w.p1.y + t * (w.p2.y - w.p1.y)⟩).1.WF ∧
    (w.splice ⟨w.p1.x + t * (w.p2.x - w.p1.x), w.p1.y + t * (w.p2.y - w.p1.y)⟩).2.WF := by
  obtain ⟨c, hc, hfwd⟩ := hw
  have htne : t ≠ 0 := ne_of_gt ht0
  have ht1ne : 1 - t ≠ 0 := ne_of_gt (by linarith)
  constructor
  · refine ⟨c / t, div_pos hc ht0, ?_⟩
    show w.forward = _
    rw [hfwd]
    simp only [Wall.splice, Vec2.mk.injEq]
    constructor <;> (field_simp; ring)
  · refine ⟨c / (1 - t), div_pos hc (by linarith), ?_⟩
    show w.forward = _
    rw [hfwd]
    simp only [Wall.splice, Vec2.mk.injEq]
    constructor <;> (field_simp; ring)

/-- C2 corrected: both segments returned by `splice` carry the parent's
stored normal unchanged (never a freshly derived one); when the split
point lies strictly between the endpoints on the parent's line and the
parent is well-formed, that inherited normal is a positive scalar
multiple of the normal freshly derived from each half's own endpoints,
so the halves remain well-formed. -/
theorem splice_normal_amended (w : Wall) (t : ℚ) (hw : w.WF) (ht0 : 0 < t) (ht1 : t < 1) :
    ((w.splice ⟨w.p1.x + t * (w.p2.x - w.p1.x),
        w.p1.y + t * (w.p2.y - w.p1.y)⟩).1.forward = w.forward ∧
      (w.splice ⟨w.p1.x + t * (w.p2.x - w.p1.x),
        w.p1.y + t * (w.p2.y - w.p1.y)⟩).2.forward = w.forward) ∧
    ((w.splice ⟨w.p1.x + t * (w.p2.x - w.p1.x),
        w.p1.y + t * (w.p2.y - w.p1.y)⟩).1.WF ∧
      (w.splice ⟨w.p1.x + t * (w.p2.x - w.p1.x),
        w.p1.y + t * (w.p2.y - w.p1.y)⟩).2.WF) :=
  ⟨⟨rfl, rfl⟩, splice_interior_WF w t hw ht0 ht1⟩

/-- Witness for the amended C2 at a concrete wall and split parameter. -/
theorem splice_normal_amended_witness :
    ((Wall.new ⟨0, 0⟩ ⟨2, 0⟩).splice
      ⟨(Wall.new ⟨0, 0⟩ ⟨2, 0⟩).p1.x +
          1/2 * ((Wall.new ⟨0, 0⟩ ⟨2, 0⟩).p2.x - (Wall.new ⟨0, 0⟩ ⟨2, 0⟩).p1.x),
        (Wall.new ⟨0, 0⟩ ⟨2, 0⟩).p1.y +
          1/2 * ((Wall.new ⟨0, 0⟩ ⟨2, 0⟩).p2.y - (Wall.new ⟨0, 0⟩ ⟨2, 0⟩).p1.y)⟩).1.forward
      = (Wall.new ⟨0, 0⟩ ⟨2, 0⟩).forward :=
  (splice_normal_amended (Wall.new ⟨0, 0⟩ ⟨2, 0⟩) (1/2) (new_WF _ _)
    (by norm_num) (by norm_num)).1.1

/-! ### Counting: each original wall contributes at most one element to
each side of the classification -/

/-- `frontList` distributes over append. -/
theorem frontList_append (p : Wall) (l₁ l₂ : List Wall) :
    frontList p (l₁ ++ l₂) = frontList p l₁ ++ frontList p l₂ := by
  simp [frontList]

/-- `backList` distributes over append. -/
theorem backList_append (p : Wall) (l₁ l₂ : List Wall) :
    backList p (l₁ ++ l₂) = backList p l₁ ++ backList p l₂ := by
  simp [backList]

/-- Each wall's expansion (itself, or its two splice halves) puts at
most one element into the front class and at most one into the back
class, against a well-formed slice plane. -/
theorem expansion_counts (plane w : Wall) (hWF : plane.WF) :
    (frontList plane (match w.intersection plane with
      | some pt => [(w.splice pt).1, (w.splice pt).2]
      | none => [w])).length ≤ 1 ∧
    (backList plane (match w.intersection plane with
      | some pt => [(w.splice pt).1, (w.splice pt).2]
      | none => [w])).length ≤ 1 := by
  rcases hx : w.intersection plane with _ | pt
  · constructor <;>
      · simp only [frontList, backList]
        exact le_trans (List.length_filter_le _ _) (by simp)
  · have hop := in_front_splice_opposite plane w pt hWF hx
    cases h2 : plane.in_front (w.splice pt).2 <;> rw [h2] at hop <;>
      simp [frontList, backList, List.filter, hop, h2]

/-- Against a well-formed slice plane, the front and back lists produced
from `rest` have at most `rest.length` elements each. -/
theorem spliceStep_counts (plane : Wall) (hWF : plane.WF) (rest : List Wall) :
    (frontList plane (spliceStep plane rest)).length ≤ rest.length ∧
    (backList plane (spliceStep plane rest)).length ≤ rest.length := by
  induction rest with
  | nil => simp [spliceStep, frontList, backList]
  | cons w rest ih =>
    have hstep : spliceStep plane (w :: rest) = (match w.intersection plane with
        | some pt => [(w.splice pt).1, (w.splice pt).2]
        | none => [w]) ++ spliceStep plane rest := by
      simp [spliceStep]
    have he := expansion_counts plane w hWF
    constructor
    · rw [hstep, frontList_append, List.length_append, List.length_cons]
      have h1 := he.1
      have h2 := ih.1
      omega
    · rw [hstep, backList_append, List.length_append, List.length_cons]
      have h1 := he.2
      have h2 := ih.2
      omega

/-- Every wall produced by the splitting pass is well-formed when the
input walls are. -/
theorem spliceStep_WF (plane : Wall) (rest : List Wall)
    (hws : ∀ w ∈ rest, w.WF) : ∀ w' ∈ spliceStep plane rest, w'.WF := by
  intro w' hmem
  simp only [spliceStep, List.mem_flatMap] at hmem
  obtain ⟨w, hw, hmem⟩ := hmem
  rcases hx : w.intersection plane with _ | pt
  · rw [hx] at hmem
    simp only [List.mem_singleton] at hmem
    subst hmem
    exact hws _ hw
  · rw [hx] at hmem
    obtain ⟨hden, ht0, ht1, hpt⟩ := intersection_some_elim w plane pt hx
    subst hpt
    have hsp := splice_interior_WF w (w.tparam plane) (hws w hw) ht0 ht1
    simp only [List.mem_cons, List.mem_singleton, List.not_mem_nil, or_false] at hmem
    rcases hmem with h | h <;> subst h
    · exact hsp.1
    · exact hsp.2

/-- Fuel exceeding the wall count always suffices: the recursion
terminates on well-formed walls. -/
theorem tree_create_fuel_suffices : ∀ (fuel : Nat) (walls : List Wall),
    (∀ w ∈ walls, w.WF) → walls.length < fuel →
    (Map.tree_create fuel walls).isSome = true := by
  intro fuel
  induction fuel with
  | zero =>
    intro walls _ hlen
    omega
  | succ n ih =>
    intro walls hws hlen
    match walls with
    | [] => simp [Map.tree_create]
    | [w] => simp [Map.tree_create]
    | plane :: w2 :: rest =>
      have hWFp : plane.WF := hws plane (by simp)
      have hrest : ∀ w ∈ w2 :: rest, w.WF :=
        fun w hw => hws w (List.mem_cons_of_mem _ hw)
      have hcounts := spliceStep_counts plane hWFp (w2 :: rest)
      have hWFnew := spliceStep_WF plane (w2 :: rest) hrest
      have hfront_wf : ∀ w ∈ frontList plane (spliceStep plane (w2 :: rest)), w.WF :=
        fun w hw => hWFnew w (List.mem_filter.1 hw).1
      have hback_wf : ∀ w ∈ backList plane (spliceStep plane (w2 :: rest)), w.WF :=
        fun w hw => hWFnew w (List.mem_filter.1 hw).1
      have hlen' : (w2 :: rest).length + 1 < n + 1 := by simpa using hlen
      have hf := ih (frontList plane (spliceStep plane (w2 :: rest))) hfront_wf
        (by have := hcounts.1; omega)
      have hb := ih (backList plane (spliceStep plane (w2 :: rest))) hback_wf
        (by have := hcounts.2; omega)
      obtain ⟨b, hbeq⟩ := Option.isSome_iff_exists.mp hb
      obtain ⟨f, hfeq⟩ := Option.isSome_iff_exists.mp hf
      simp only [Map.tree_create]
      rw [hbeq, hfeq]
      rfl

/-- C7: on well-formed input walls (the invariant `Wall::new`
establishes and `Wall::splice` preserves), the recursive partition
builder terminates — fuel exceeding the list length suffices — and the
front and back sublists passed to each recursive call are strictly
shorter than the input list, because each non-split segment goes to
exactly one sublist and each split contributes one half to each side. -/
theorem tree_create_terminates (walls : List Wall) (hws : ∀ w ∈ walls, w.WF) :
    (∀ fuel, walls.length < fuel → (Map.tree_create fuel walls).isSome = true) ∧
    (∀ plane rest, walls = plane :: rest →
      (frontList plane (spliceStep plane rest)).length < walls.length ∧
      (backList plane (spliceStep plane rest)).length < walls.length) := by
  constructor
  · exact fun fuel hlen => tree_create_fuel_suffices fuel walls hws hlen
  · intro plane rest heq
    subst heq
    have hWFp : plane.WF := hws plane (by simp)
    have hcounts := spliceStep_counts plane hWFp rest
    constructor
    · have := hcounts.1
      simp only [List.length_cons]
      omega
    · have := hcounts.2
      simp only [List.length_cons]
      omega

/-- Witness for C7: the two crossing segments of the spec's concrete
scenario; fuel 3 exceeds the list length 2 and the build finishes. -/
theorem tree_create_terminates_witness :
    (Map.tree_create 3 [Wall.new ⟨-1, 0⟩ ⟨1, 0⟩, Wall.new ⟨0, -1⟩ ⟨0, 1⟩]).isSome = true := by
  refine (tree_create_terminates [Wall.new ⟨-1, 0⟩ ⟨1, 0⟩, Wall.new ⟨0, -1⟩ ⟨0, 1⟩]
    ?_).1 3 (by simp)
  intro w hw
  simp only [List.mem_cons, List.mem_singleton, List.not_mem_nil, or_false] at hw
  rcases hw with h | h <;> subst h <;> exact new_WF _ _

/-- C9: a segment whose midpoint lies exactly on the splitting plane's
line (dot product with the stored normal exactly zero) fails the strict
half-plane test, so the classification pass always assigns it to the
back list and never to the front list; a viewer point exactly on the
line is likewise not in front. -/
theorem on_line_goes_back (plane w : Wall) (p : Vec2) (ws : List Wall)
    (hmid : ((w.p1 + w.p2).divScalar 2 - plane.p1).dot plane.forward = 0)
    (hp : (p - plane.p1).dot plane.forward = 0) :
    plane.in_front w = false ∧
    (w ∈ ws → w ∈ backList plane ws ∧ w ∉ frontList plane ws) ∧
    plane.in_front_point p = false := by
  have h1 : plane.in_front w = false := by
    simp [Wall.in_front, hmid]
  refine ⟨h1, fun hw => ⟨?_, ?_⟩, ?_⟩
  · exact List.mem_filter.2 ⟨hw, by simp [h1]⟩
  · intro hmem
    have h2 := (List.mem_filter.1 hmem).2
    rw [h1] at h2
    exact absurd h2 (by simp)
  · simp [Wall.in_front_point, hp]

/-- Witness for C9: a collinear wall with midpoint on the plane's line
goes to the back list; a point on the line is not in front. -/
theorem on_line_goes_back_witness :
    (Wall.new ⟨0, 0⟩ ⟨1, 0⟩).in_front (Wall.new ⟨2, 0⟩ ⟨4, 0⟩) = false ∧
    Wall.new ⟨2, 0⟩ ⟨4, 0⟩ ∈
      backList (Wall.new ⟨0, 0⟩ ⟨1, 0⟩) [Wall.new ⟨2, 0⟩ ⟨4, 0⟩] ∧
    (Wall.new ⟨0, 0⟩ ⟨1, 0⟩).in_front_point ⟨5, 0⟩ = false := by
  have h := on_line_goes_back (Wall.new ⟨0, 0⟩ ⟨1, 0⟩) (Wall.new ⟨2, 0⟩ ⟨4, 0⟩)
    ⟨5, 0⟩ [Wall.new ⟨2, 0⟩ ⟨4, 0⟩]
    (by norm_num [Vec2.dot, Wall.new, Vec3.cross])
    (by norm_num [Vec2.dot, Wall.new, Vec3.cross])
  exact ⟨h.1, (h.2.1 (by simp)).1, h.2.2⟩
